import Mathlib

/-!
Shallow embedding of the `davenport` crate (src/src/lib.rs): a type-erased
workspace container `Workspace` holding at most one entry per runtime type,
with the lookup/insert protocol `get_or_insert_with` / `get_or_default`, the
thread-local access wrapper `with_thread_local_workspace`, and the probe
operations `try_get` / `try_get_mut` / `try_insert` exercised by the tests.

Runtime types (`std::any::TypeId`) are modelled by an arbitrary type `τ` with
decidable equality; a `Box<dyn Any>` is an `Entry τ Val`: a tag `ty : τ`
together with a value of the tag's value type `Val ty`. `Vec` is modelled by
`List`; every Rust panic site is made explicit by returning
`Except PanicKind`.
-/

namespace Davenport

universe u v

variable {α : Type u}

/-- Index of the last element of the list satisfying `p`, mirroring Rust's
`Iterator::rposition` (the source searches the entry vector from the end). -/
def rposition (p : α → Bool) : List α → Option Nat
  | [] => none
  | a :: l =>
    match rposition p l with
    | some i => some (i + 1)
    | none => if p a then some 0 else none

/-- Swap of the elements at positions `i` and `j`, mirroring `Vec::swap`;
`none` models the out-of-bounds panic. -/
def lswap (l : List α) (i j : Nat) : Option (List α) :=
  match l[i]?, l[j]? with
  | some x, some y => some ((l.set i y).set j x)
  | _, _ => none

variable {τ : Type u} [DecidableEq τ] {Val : τ → Type v}

/-- A type-erased entry (`Box<dyn Any>`): a runtime type tag together with a
value of that type. -/
structure Entry (τ : Type u) (Val : τ → Type v) where
  ty : τ
  val : Val ty

/-- Mirrors `<dyn Any>::is::<W>()`: does the entry currently hold a `W`? -/
def Entry.is (e : Entry τ Val) (t : τ) : Bool :=
  decide (e.ty = t)

/-- Mirrors `<dyn Any>::downcast_mut::<W>()`: recover the typed value when the
tag matches, `none` otherwise. -/
def Entry.downcast (e : Entry τ Val) (t : τ) : Option (Val t) :=
  if h : e.ty = t then some (h ▸ e.val) else none

/-- The type-erased workspace container (`pub struct Workspace`): an ordered
sequence of owned, type-erased entries. -/
structure Workspace (τ : Type u) (Val : τ → Type v) where
  workspaces : List (Entry τ Val)

/-- Mirrors `Workspace::default()` (`#[derive(Default)]`): the empty store. -/
def Workspace.default (τ : Type u) (Val : τ → Type v) : Workspace τ Val :=
  ⟨[]⟩

/-- Explicit enumeration of the panic sites of the source, so that theorems
can speak about each one being unreachable. -/
inductive PanicKind : Type where
  /-- `self.workspaces.len() - 1` with an empty vector (debug underflow /
  release out-of-bounds). -/
  | lenUnderflow
  /-- `Vec::swap` index out of bounds. -/
  | swapOutOfBounds
  /-- `self.workspaces[last]` out of bounds. -/
  | indexOutOfBounds
  /-- the `.expect(..)` on `downcast_mut` failing. -/
  | downcastFailure
  /-- `RefCell::borrow_mut` while already borrowed (re-entrant
  `with_thread_local_workspace`). -/
  | reentrantBorrow

/-- First step of `Workspace::get_or_insert_with` (lib.rs lines 162-171): the
`rposition` lookup and, on a miss, the `create()` call and push. Returns the
entry list together with the index `idx` of the `W` entry. -/
def Workspace.lookupOrCreate (ws : Workspace τ Val) (t : τ)
    (create : Unit → Val t) : List (Entry τ Val) × Nat :=
  match rposition (fun e => e.is t) ws.workspaces with
  | some idx => (ws.workspaces, idx)
  | none => (ws.workspaces ++ [⟨t, create ()⟩], ws.workspaces.length)

/-- Mirrors `Workspace::get_or_insert_with` (lib.rs lines 156-183): look up
the last entry holding a `W` (or create and push one), swap it to the tail,
and downcast the tail entry. The returned pair is the post-state together
with the value the returned `&mut W` points at; `Except.error` marks the
panic sites of the source. -/
def Workspace.get_or_insert_with (ws : Workspace τ Val) (t : τ)
    (create : Unit → Val t) :
    Except PanicKind (Workspace τ Val × Val t) :=
  let p := ws.lookupOrCreate t create
  if p.1.length = 0 then .error .lenUnderflow
  else
    let last := p.1.length - 1
    match lswap p.1 p.2 last with
    | none => .error .swapOutOfBounds
    | some l2 =>
      match l2[last]? with
      | none => .error .indexOutOfBounds
      | some e =>
        match e.downcast t with
        | none => .error .downcastFailure
        | some v => .ok (⟨l2⟩, v)

/-- Mirrors `Workspace::get_or_default` (lib.rs lines 185-190):
`get_or_insert_with(Default::default)`; the `W: Default` bound becomes an
`Inhabited` instance. -/
def Workspace.get_or_default (ws : Workspace τ Val) (t : τ)
    [Inhabited (Val t)] : Except PanicKind (Workspace τ Val × Val t) :=
  ws.get_or_insert_with t (fun _ => Inhabited.default)

/-- Modelled from the spec: `Workspace::try_get` is absent from
src/src/lib.rs (only its test callers are in the repository). Per spec §4.1
it returns a reference to the existing `W` entry or nothing if absent, must
not create an entry and is a read-only probe, so it is a pure function of
the state. The lookup scans from the tail like `get_or_insert_with`. -/
def Workspace.try_get (ws : Workspace τ Val) (t : τ) : Option (Val t) :=
  (rposition (fun e => e.is t) ws.workspaces).bind
    (fun idx => ws.workspaces[idx]?.bind (fun e => e.downcast t))

/-- Modelled from the spec: `Workspace::try_get_mut` is absent from
src/src/lib.rs. Per spec §4.1 it is the mutable variant of `try_get` and
also must not create an entry; the value the returned `&mut W` would point
at is the same one `try_get` finds. -/
def Workspace.try_get_mut (ws : Workspace τ Val) (t : τ) : Option (Val t) :=
  ws.try_get t

/-- Modelled from the spec: `Workspace::try_insert` is absent from
src/src/lib.rs. Per spec §4.1, if an entry for `W` already exists the value
is discarded and the call returns nothing with the store untouched;
otherwise the value becomes the new entry and is returned. The new entry is
pushed at the tail like `get_or_insert_with`'s miss path. -/
def Workspace.try_insert (ws : Workspace τ Val) (t : τ) (v : Val t) :
    Workspace τ Val × Option (Val t) :=
  if ws.workspaces.any (fun e => e.is t) then (ws, none)
  else (⟨ws.workspaces ++ [⟨t, v⟩]⟩, some v)

/-- A write through the `&mut W` returned by `get_or_insert_with`: that
reference points at the tail entry of the post-state, so mutating through it
replaces the tail entry's value (the tag cannot change through a `&mut W`). -/
def Workspace.setTail (ws : Workspace τ Val) (t : τ) (v : Val t) :
    Workspace τ Val :=
  ⟨ws.workspaces.set (ws.workspaces.length - 1) ⟨t, v⟩⟩

/-- A thread-local workspace handle (`LocalKey<RefCell<Workspace>>` as seen
from one thread): the store together with the `RefCell` borrow flag. `held`
is `true` exactly while a `borrow_mut` guard is alive. -/
structure Handle (τ : Type u) (Val : τ → Type v) where
  held : Bool
  store : Workspace τ Val

/-- Mirrors `with_thread_local_workspace` (lib.rs lines 224-233):
`borrow_mut` the thread-local store (panicking with `reentrantBorrow` when
the borrow is already held, i.e. on a nested call), obtain the `W` slot via
`get_or_default`, run the closure on it, and release the borrow on every
exit path. The closure `f` receives the handle in its in-flight (held)
state — modelling that the body can name the same thread-local — and the
slot value; it returns its outcome (`Except.error` models a panic of the
body, which propagates after the borrow is released) together with the
final value of the `W` slot, whose write-back through the `&mut W` is
`setTail`. -/
def with_thread_local_workspace {ε : Type u} {β : Type v}
    (h : Handle τ Val) (t : τ) [Inhabited (Val t)]
    (f : Handle τ Val → Val t → Except ε β × Val t) :
    Except PanicKind (Except ε β × Handle τ Val) :=
  if h.held then .error .reentrantBorrow
  else
    let h1 : Handle τ Val := { h with held := true }
    match h1.store.get_or_default t with
    | .error pk => .error pk
    | .ok (ws1, w) =>
      let r := f h1 w
      .ok (r.1, { held := false, store := ws1.setTail t r.2 })

/-- One store operation of spec §4.1, for stating properties of arbitrary
operation sequences. `getOrDefault` carries its `Default` evidence. -/
inductive Op (τ : Type u) (Val : τ → Type v) : Type (max u v) where
  | getOrInsertWith (t : τ) (create : Unit → Val t)
  | getOrDefault (t : τ) (inst : Inhabited (Val t))
  | tryInsert (t : τ) (v : Val t)
  | tryGet (t : τ)
  | tryGetMut (t : τ)

/-- State effect of one operation (probes are read-only, `try_insert` never
panics, the `get_or_*` family can in principle hit a panic site). -/
def Op.apply : Op τ Val → Workspace τ Val →
    Except PanicKind (Workspace τ Val)
  | .getOrInsertWith t create, ws =>
    (ws.get_or_insert_with t create).map Prod.fst
  | .getOrDefault t inst, ws =>
    (@Workspace.get_or_default _ _ _ ws t inst).map Prod.fst
  | .tryInsert t v, ws => .ok (ws.try_insert t v).1
  | .tryGet _, ws => .ok ws
  | .tryGetMut _, ws => .ok ws

/-- Runs a sequence of store operations from a given state. -/
def runOps : List (Op τ Val) → Workspace τ Val →
    Except PanicKind (Workspace τ Val)
  | [], ws => .ok ws
  | op :: rest, ws =>
    match op.apply ws with
    | .error pk => .error pk
    | .ok ws1 => runOps rest ws1

/-! Basic facts about `rposition`, `lswap` and `Entry.downcast`. -/

theorem rposition_eq_none_iff {p : α → Bool} {l : List α} :
    rposition p l = none ↔ ∀ a ∈ l, p a = false := by
  induction l with
  | nil => simp [rposition]
  | cons b t ih =>
    simp only [rposition, List.mem_cons]
    cases hrec : rposition p t with
    | some i =>
      constructor
      · intro h; cases h
      · intro hall
        have hn : rposition p t = none :=
          ih.mpr (fun a ha => hall a (Or.inr ha))
        rw [hn] at hrec
        cases hrec
    | none =>
      have htail : ∀ a ∈ t, p a = false := ih.mp hrec
      by_cases hpb : p b = true
      · rw [if_pos hpb]
        constructor
        · intro h; cases h
        · intro hall
          rw [hall b (Or.inl rfl)] at hpb
          cases hpb
      · rw [if_neg hpb]
        constructor
        · intro _ a ha
          rcases ha with rfl | ha
          · exact Bool.eq_false_iff.mpr hpb
          · exact htail a ha
        · intro _
          rfl

theorem rposition_some_spec {p : α → Bool} {l : List α} {i : Nat}
    (h : rposition p l = some i) : ∃ a, l[i]? = some a ∧ p a = true := by
  induction l generalizing i with
  | nil => simp [rposition] at h
  | cons b t ih =>
    simp only [rposition] at h
    cases hrec : rposition p t with
    | some j =>
      rw [hrec] at h
      cases h
      obtain ⟨a, ha, hpa⟩ := ih hrec
      exact ⟨a, by simpa using ha, hpa⟩
    | none =>
      rw [hrec] at h
      by_cases hpb : p b = true
      · rw [if_pos hpb] at h
        cases h
        exact ⟨b, by simp, hpb⟩
      · rw [if_neg hpb] at h
        cases h

theorem rposition_isSome_of_mem {p : α → Bool} {l : List α} {a : α}
    (ha : a ∈ l) (hpa : p a = true) : (rposition p l).isSome := by
  cases hr : rposition p l with
  | some i => rfl
  | none =>
    have := rposition_eq_none_iff.mp hr a ha
    rw [hpa] at this
    cases this

theorem rposition_cons {p : α → Bool} {b : α} {t : List α} :
    rposition p (b :: t) =
      match rposition p t with
      | some i => some (i + 1)
      | none => if p b then some 0 else none := by
  rfl

theorem rposition_append_singleton {p : α → Bool} {l : List α} {e : α} :
    rposition p (l ++ [e]) =
      if p e then some l.length else rposition p l := by
  induction l with
  | nil =>
    by_cases hpe : p e = true <;> simp [rposition, hpe]
  | cons b t ih =>
    rw [List.cons_append, rposition_cons, ih]
    by_cases hpe : p e = true
    · rw [if_pos hpe, if_pos hpe]
      rfl
    · rw [if_neg hpe, if_neg hpe, rposition_cons]

theorem rposition_lt_length {p : α → Bool} {l : List α} {i : Nat}
    (h : rposition p l = some i) : i < l.length := by
  obtain ⟨a, ha, -⟩ := rposition_some_spec h
  exact (List.getElem?_eq_some.mp ha).1

theorem set_cons_perm {l : List α} {k : Nat} {y : α} (a : α)
    (h : l[k]? = some y) : List.Perm (y :: l.set k a) (a :: l) := by
  induction l generalizing k with
  | nil => simp at h
  | cons b t ih =>
    cases k with
    | zero =>
      have hb : b = y := by simpa using h
      subst hb
      show List.Perm (b :: a :: t) (a :: b :: t)
      exact List.Perm.swap a b t
    | succ m =>
      simp only [List.getElem?_cons_succ] at h
      have h1 : List.Perm (y :: b :: t.set m a) (b :: y :: t.set m a) :=
        List.Perm.swap b y _
      have h2 : List.Perm (b :: y :: t.set m a) (b :: a :: t) :=
        List.Perm.cons b (ih h)
      have h3 : List.Perm (b :: a :: t) (a :: b :: t) := List.Perm.swap a b t
      show List.Perm (y :: b :: t.set m a) (a :: b :: t)
      exact (h1.trans h2).trans h3

theorem set_set_perm {l : List α} {i j : Nat} {x y : α}
    (hx : l[i]? = some x) (hy : l[j]? = some y) :
    List.Perm ((l.set i y).set j x) l := by
  induction l generalizing i j with
  | nil => simp at hx
  | cons b t ih =>
    cases i with
    | zero =>
      have hxb : b = x := by simpa using hx
      subst hxb
      cases j with
      | zero =>
        have hyb : b = y := by simpa using hy
        subst hyb
        show List.Perm (b :: t) (b :: t)
        exact List.Perm.refl _
      | succ m =>
        simp only [List.getElem?_cons_succ] at hy
        show List.Perm (y :: t.set m b) (b :: t)
        exact set_cons_perm b hy
    | succ n =>
      simp only [List.getElem?_cons_succ] at hx
      cases j with
      | zero =>
        have hyb : b = y := by simpa using hy
        subst hyb
        show List.Perm (x :: t.set n b) (b :: t)
        exact set_cons_perm b hx
      | succ m =>
        simp only [List.getElem?_cons_succ] at hy
        show List.Perm (b :: (t.set n y).set m x) (b :: t)
        exact List.Perm.cons b (ih hx hy)

theorem lswap_some {l : List α} {i j : Nat} {x y : α}
    (hx : l[i]? = some x) (hy : l[j]? = some y) :
    lswap l i j = some ((l.set i y).set j x) := by
  simp [lswap, hx, hy]

theorem lswap_perm {l l2 : List α} {i j : Nat}
    (h : lswap l i j = some l2) : List.Perm l2 l := by
  unfold lswap at h
  cases hx : l[i]? with
  | none => rw [hx] at h; cases h
  | some x =>
    cases hy : l[j]? with
    | none => rw [hx, hy] at h; cases h
    | some y =>
      rw [hx, hy] at h
      cases h
      exact set_set_perm hx hy

theorem lswap_length {l l2 : List α} {i j : Nat}
    (h : lswap l i j = some l2) : l2.length = l.length :=
  (lswap_perm h).length_eq

theorem lswap_getElem?_snd {l l2 : List α} {i j : Nat}
    (h : lswap l i j = some l2) (hj : j < l.length) : l2[j]? = l[i]? := by
  unfold lswap at h
  cases hx : l[i]? with
  | none => rw [hx] at h; cases h
  | some x =>
    cases hy : l[j]? with
    | none => rw [hx, hy] at h; cases h
    | some y =>
      rw [hx, hy] at h
      cases h
      rw [List.getElem?_set_self (by simpa using hj)]

theorem downcast_mk {t : τ} {v : Val t} :
    (Entry.mk t v).downcast t = some v := by
  simp [Entry.downcast]

theorem downcast_eq_some_iff {e : Entry τ Val} {t : τ} {v : Val t} :
    e.downcast t = some v ↔ e = ⟨t, v⟩ := by
  cases e with
  | mk t0 v0 =>
    unfold Entry.downcast
    by_cases h : t0 = t
    · subst h
      simp
    · simp [h]

theorem downcast_eq_none_iff {e : Entry τ Val} {t : τ} :
    e.downcast t = none ↔ e.ty ≠ t := by
  cases e with
  | mk t0 v0 =>
    unfold Entry.downcast
    by_cases h : t0 = t
    · subst h; simp
    · simp [h]

theorem downcast_isSome_of_ty {e : Entry τ Val} {t : τ} (h : e.ty = t) :
    ∃ v, e.downcast t = some v := by
  cases e with
  | mk t0 v0 =>
    cases h
    exact ⟨v0, downcast_mk⟩

/-! Characterization of `try_get` and structural facts about
`get_or_insert_with`. -/

theorem entry_ty_eq_exists {e : Entry τ Val} {t : τ} (h : e.ty = t) :
    ∃ v : Val t, e = ⟨t, v⟩ := by
  obtain ⟨v, hv⟩ := downcast_isSome_of_ty h
  exact ⟨v, downcast_eq_some_iff.mp hv⟩

theorem set_append_singleton {l : List α} {a b : α} :
    (l ++ [a]).set l.length b = l ++ [b] := by
  induction l with
  | nil => rfl
  | cons c t ih => simp [ih]

theorem try_get_mem {ws : Workspace τ Val} {t : τ} {v : Val t}
    (h : ws.try_get t = some v) : Entry.mk t v ∈ ws.workspaces := by
  unfold Workspace.try_get at h
  cases hr : rposition (fun e => e.is t) ws.workspaces with
  | none => simp [hr] at h
  | some idx =>
    simp only [hr, Option.some_bind] at h
    cases hidx : ws.workspaces[idx]? with
    | none => simp [hidx] at h
    | some e =>
      simp only [hidx, Option.some_bind] at h
      have he : e = ⟨t, v⟩ := downcast_eq_some_iff.mp h
      obtain ⟨hlt, hEq⟩ := List.getElem?_eq_some.mp hidx
      rw [← he, ← hEq]
      exact List.getElem_mem hlt

theorem try_get_eq_none_iff {ws : Workspace τ Val} {t : τ} :
    ws.try_get t = none ↔ ∀ e ∈ ws.workspaces, e.ty ≠ t := by
  unfold Workspace.try_get
  cases hr : rposition (fun e => e.is t) ws.workspaces with
  | none =>
    have hall := rposition_eq_none_iff.mp hr
    simp only [hr, Option.none_bind]
    constructor
    · intro _ e he
      have := hall e he
      simpa [Entry.is] using this
    · intro _
      trivial
  | some idx =>
    obtain ⟨e, hidx, hpe⟩ := rposition_some_spec hr
    have hty : e.ty = t := by simpa [Entry.is] using hpe
    obtain ⟨v, hv⟩ := downcast_isSome_of_ty hty
    simp only [hr, Option.some_bind, hidx, hv]
    constructor
    · intro h; cases h
    · intro hall
      have hmem : e ∈ ws.workspaces := by
        obtain ⟨hlt, hEq⟩ := List.getElem?_eq_some.mp hidx
        rw [← hEq]
        exact List.getElem_mem hlt
      exact absurd hty (hall e hmem)

theorem nodup_ty_getElem?_inj {l : List (Entry τ Val)}
    (hnd : (l.map Entry.ty).Nodup) {i j : Nat} {e₁ e₂ : Entry τ Val}
    (hi : l[i]? = some e₁) (hj : l[j]? = some e₂)
    (hty : e₁.ty = e₂.ty) : i = j := by
  obtain ⟨hi', hie⟩ := List.getElem?_eq_some.mp hi
  obtain ⟨hj', hje⟩ := List.getElem?_eq_some.mp hj
  by_contra hne
  have hpw := List.pairwise_iff_getElem.mp hnd
  have hmi : i < (l.map Entry.ty).length := by simpa using hi'
  have hmj : j < (l.map Entry.ty).length := by simpa using hj'
  rcases Nat.lt_or_ge i j with hlt | hge
  · have := hpw i j hmi hmj hlt
    rw [List.getElem_map, List.getElem_map] at this
    rw [hie, hje] at this
    exact this hty
  · have hlt' : j < i := Nat.lt_of_le_of_ne hge (fun h => hne h.symm)
    have := hpw j i hmj hmi hlt'
    rw [List.getElem_map, List.getElem_map] at this
    rw [hie, hje] at this
    exact this hty.symm

theorem try_get_of_mem {ws : Workspace τ Val} {t : τ} {v : Val t}
    (hnd : (ws.workspaces.map Entry.ty).Nodup)
    (hmem : Entry.mk t v ∈ ws.workspaces) : ws.try_get t = some v := by
  obtain ⟨j, hj', hje⟩ := List.mem_iff_getElem.mp hmem
  have hj : ws.workspaces[j]? = some ⟨t, v⟩ :=
    List.getElem?_eq_some.mpr ⟨hj', hje⟩
  have hsome : (rposition (fun e => e.is t) ws.workspaces).isSome :=
    rposition_isSome_of_mem hmem (by simp [Entry.is])
  cases hr : rposition (fun e => e.is t) ws.workspaces with
  | none => rw [hr] at hsome; cases hsome
  | some idx =>
    obtain ⟨e, hidx, hpe⟩ := rposition_some_spec hr
    have hty : e.ty = t := by simpa [Entry.is] using hpe
    have hij : idx = j := nodup_ty_getElem?_inj hnd hidx hj hty
    subst hij
    have he : e = ⟨t, v⟩ := by
      rw [hidx] at hj
      exact Option.some_inj.mp hj
    unfold Workspace.try_get
    simp only [hr, Option.some_bind, hidx, he, downcast_mk]

theorem try_get_congr {ws₁ ws₂ : Workspace τ Val} {t : τ}
    (h₂ : (ws₂.workspaces.map Entry.ty).Nodup)
    (hiff : ∀ v : Val t,
      Entry.mk t v ∈ ws₁.workspaces ↔ Entry.mk t v ∈ ws₂.workspaces) :
    ws₁.try_get t = ws₂.try_get t := by
  cases h : ws₁.try_get t with
  | some v =>
    exact (try_get_of_mem h₂ ((hiff v).mp (try_get_mem h))).symm
  | none =>
    symm
    rw [try_get_eq_none_iff]
    intro e he hty
    obtain ⟨v, rfl⟩ := entry_ty_eq_exists hty
    have := (hiff v).mpr he
    have hnone := try_get_eq_none_iff.mp h _ this
    exact hnone rfl

theorem get_or_insert_with_eq {ws : Workspace τ Val} {t : τ}
    {create : Unit → Val t} {l : List (Entry τ Val)} {idx : Nat}
    {e elast : Entry τ Val} {v : Val t}
    (hlc : ws.lookupOrCreate t create = (l, idx))
    (hidx : l[idx]? = some e) (hlast : l[l.length - 1]? = some elast)
    (hdc : e.downcast t = some v) :
    ws.get_or_insert_with t create =
      .ok (⟨(l.set idx elast).set (l.length - 1) e⟩, v) := by
  have hpos : 0 < l.length := by
    rcases Nat.eq_zero_or_pos l.length with h | h
    · rw [List.length_eq_zero.mp h] at hidx
      simp at hidx
    · exact h
  have hlast_lt : l.length - 1 < (l.set idx elast).length := by
    rw [List.length_set]
    exact Nat.sub_lt hpos Nat.one_pos
  unfold Workspace.get_or_insert_with
  rw [hlc]
  simp only
  rw [if_neg (Nat.pos_iff_ne_zero.mp hpos)]
  rw [lswap_some hidx hlast]
  simp only
  rw [List.getElem?_set_self hlast_lt]
  simp only [hdc]

theorem get_or_insert_with_absent {ws : Workspace τ Val} {t : τ}
    (create : Unit → Val t)
    (h : rposition (fun e => e.is t) ws.workspaces = none) :
    ws.get_or_insert_with t create =
      .ok (⟨ws.workspaces ++ [⟨t, create ()⟩]⟩, create ()) := by
  have hlc : ws.lookupOrCreate t create =
      (ws.workspaces ++ [⟨t, create ()⟩], ws.workspaces.length) := by
    unfold Workspace.lookupOrCreate
    rw [h]
  have hlen : (ws.workspaces ++ [(⟨t, create ()⟩ : Entry τ Val)]).length - 1 =
      ws.workspaces.length := by simp
  have hidx : (ws.workspaces ++ [(⟨t, create ()⟩ : Entry τ Val)])[ws.workspaces.length]? =
      some ⟨t, create ()⟩ := List.getElem?_concat_length _ _
  have := get_or_insert_with_eq hlc hidx (by rw [hlen]; exact hidx) downcast_mk
  rw [this, hlen, List.set_set, set_append_singleton]

theorem get_or_insert_with_present {ws : Workspace τ Val} {t : τ}
    (create : Unit → Val t) {idx : Nat}
    (h : rposition (fun e => e.is t) ws.workspaces = some idx) :
    ∃ ws' v, ws.get_or_insert_with t create = .ok (ws', v) ∧
      List.Perm ws'.workspaces ws.workspaces ∧
      Entry.mk t v ∈ ws.workspaces ∧
      ws'.workspaces.getLast? = some ⟨t, v⟩ ∧
      ws.try_get t = some v := by
  obtain ⟨e, hidx, hpe⟩ := rposition_some_spec h
  have hty : e.ty = t := by simpa [Entry.is] using hpe
  obtain ⟨v, hv⟩ := downcast_isSome_of_ty hty
  have he : e = ⟨t, v⟩ := downcast_eq_some_iff.mp hv
  have hpos : 0 < ws.workspaces.length :=
    Nat.lt_of_le_of_lt (Nat.zero_le _) (rposition_lt_length h)
  have hlast_lt : ws.workspaces.length - 1 < ws.workspaces.length :=
    Nat.sub_lt hpos Nat.one_pos
  obtain ⟨elast, hlast⟩ :
      ∃ elast, ws.workspaces[ws.workspaces.length - 1]? = some elast := by
    cases hl : ws.workspaces[ws.workspaces.length - 1]? with
    | none =>
      rw [List.getElem?_eq_none_iff] at hl
      exact absurd hlast_lt (Nat.not_lt.mpr hl)
    | some x => exact ⟨x, rfl⟩
  have hlc : ws.lookupOrCreate t create = (ws.workspaces, idx) := by
    unfold Workspace.lookupOrCreate
    rw [h]
  have heq := get_or_insert_with_eq hlc hidx hlast hv
  refine ⟨_, v, heq, ?_, ?_, ?_, ?_⟩
  · exact set_set_perm hidx hlast
  · obtain ⟨hlt, hEq⟩ := List.getElem?_eq_some.mp hidx
    rw [← he, ← hEq]
    exact List.getElem_mem hlt
  · have hlen' : ((ws.workspaces.set idx elast).set
        (ws.workspaces.length - 1) e).length = ws.workspaces.length := by
      simp
    rw [List.getLast?_eq_getElem?, hlen']
    rw [List.getElem?_set_self (by simpa using hlast_lt), he]
  · unfold Workspace.try_get
    simp only [h, Option.some_bind, hidx, hv]

theorem get_or_insert_with_isOk (ws : Workspace τ Val) (t : τ)
    (create : Unit → Val t) :
    ∃ ws' v, ws.get_or_insert_with t create = .ok (ws', v) := by
  cases h : rposition (fun e => e.is t) ws.workspaces with
  | none => exact ⟨_, _, get_or_insert_with_absent create h⟩
  | some idx =>
    obtain ⟨ws', v, heq, -⟩ := get_or_insert_with_present create h
    exact ⟨ws', v, heq⟩

theorem get_or_insert_with_create_irrelevant {ws : Workspace τ Val} {t : τ}
    {idx : Nat} (h : rposition (fun e => e.is t) ws.workspaces = some idx)
    (c₁ c₂ : Unit → Val t) :
    ws.get_or_insert_with t c₁ = ws.get_or_insert_with t c₂ := by
  unfold Workspace.get_or_insert_with Workspace.lookupOrCreate
  rw [h]

/-! Uniqueness-invariant preservation, `try_insert` equations, and frame
lemmas for mutation through the returned reference. -/

theorem absent_of_rposition_none {ws : Workspace τ Val} {t : τ}
    (h : rposition (fun e => e.is t) ws.workspaces = none) :
    ∀ e ∈ ws.workspaces, e.ty ≠ t := by
  intro e he
  have := rposition_eq_none_iff.mp h e he
  simpa [Entry.is] using this

theorem nodup_append_entry {l : List (Entry τ Val)} {t : τ} {v : Val t}
    (hnd : (l.map Entry.ty).Nodup) (hab : ∀ e ∈ l, e.ty ≠ t) :
    ((l ++ [(⟨t, v⟩ : Entry τ Val)]).map Entry.ty).Nodup := by
  have hmap : (l ++ [(⟨t, v⟩ : Entry τ Val)]).map Entry.ty =
      l.map Entry.ty ++ [t] := by simp
  rw [hmap]
  refine List.Nodup.append hnd (List.nodup_singleton t) ?_
  intro a ha hat
  rw [List.mem_singleton] at hat
  subst hat
  obtain ⟨e, he, hty⟩ := List.mem_map.mp ha
  exact hab e he hty

theorem mem_append_entry_iff {l : List (Entry τ Val)} {t t' : τ}
    {x : Val t} {u : Val t'} (hne : t' ≠ t) :
    Entry.mk t' u ∈ l ++ [⟨t, x⟩] ↔ Entry.mk t' u ∈ l := by
  rw [List.mem_append]
  constructor
  · rintro (h | h)
    · exact h
    · rw [List.mem_singleton] at h
      exact absurd (congrArg Entry.ty h) hne
  · exact Or.inl

theorem get_or_insert_with_nodup {ws ws' : Workspace τ Val} {t : τ}
    {create : Unit → Val t} {v : Val t}
    (hnd : (ws.workspaces.map Entry.ty).Nodup)
    (h : ws.get_or_insert_with t create = .ok (ws', v)) :
    (ws'.workspaces.map Entry.ty).Nodup := by
  cases hr : rposition (fun e => e.is t) ws.workspaces with
  | none =>
    rw [get_or_insert_with_absent create hr] at h
    simp only [Except.ok.injEq, Prod.mk.injEq] at h
    obtain ⟨h1, -⟩ := h
    rw [← h1]
    exact nodup_append_entry hnd (absent_of_rposition_none hr)
  | some idx =>
    obtain ⟨ws0, v0, heq, hperm, -⟩ :=
      get_or_insert_with_present create hr
    rw [heq] at h
    simp only [Except.ok.injEq, Prod.mk.injEq] at h
    obtain ⟨h1, -⟩ := h
    rw [← h1]
    exact ((hperm.map Entry.ty).nodup_iff).mpr hnd

theorem get_or_insert_with_mem_frame {ws ws' : Workspace τ Val} {t t' : τ}
    {create : Unit → Val t} {v : Val t} (hne : t' ≠ t)
    (h : ws.get_or_insert_with t create = .ok (ws', v)) :
    ∀ u : Val t', Entry.mk t' u ∈ ws'.workspaces ↔
      Entry.mk t' u ∈ ws.workspaces := by
  intro u
  cases hr : rposition (fun e => e.is t) ws.workspaces with
  | none =>
    rw [get_or_insert_with_absent create hr] at h
    simp only [Except.ok.injEq, Prod.mk.injEq] at h
    obtain ⟨h1, -⟩ := h
    rw [← h1]
    exact mem_append_entry_iff hne
  | some idx =>
    obtain ⟨ws0, v0, heq, hperm, -⟩ :=
      get_or_insert_with_present create hr
    rw [heq] at h
    simp only [Except.ok.injEq, Prod.mk.injEq] at h
    obtain ⟨h1, -⟩ := h
    rw [← h1]
    exact hperm.mem_iff

theorem try_get_frame {ws ws' : Workspace τ Val} {t t' : τ}
    {create : Unit → Val t} {v : Val t}
    (hnd : (ws.workspaces.map Entry.ty).Nodup) (hne : t' ≠ t)
    (h : ws.get_or_insert_with t create = .ok (ws', v)) :
    ws'.try_get t' = ws.try_get t' :=
  try_get_congr hnd (get_or_insert_with_mem_frame hne h)

theorem try_insert_present {ws : Workspace τ Val} {t : τ} (v : Val t)
    (h : ∃ e ∈ ws.workspaces, e.ty = t) :
    ws.try_insert t v = (ws, none) := by
  unfold Workspace.try_insert
  rw [if_pos]
  rw [List.any_eq_true]
  obtain ⟨e, he, hty⟩ := h
  exact ⟨e, he, by simp [Entry.is, hty]⟩

theorem try_insert_absent {ws : Workspace τ Val} {t : τ} (v : Val t)
    (h : ∀ e ∈ ws.workspaces, e.ty ≠ t) :
    ws.try_insert t v = (⟨ws.workspaces ++ [⟨t, v⟩]⟩, some v) := by
  unfold Workspace.try_insert
  rw [if_neg]
  rw [List.any_eq_true]
  rintro ⟨e, he, hp⟩
  exact h e he (by simpa [Entry.is] using hp)

theorem try_insert_nodup {ws : Workspace τ Val} {t : τ} {v : Val t}
    (hnd : (ws.workspaces.map Entry.ty).Nodup) :
    (((ws.try_insert t v).1).workspaces.map Entry.ty).Nodup := by
  by_cases h : ∃ e ∈ ws.workspaces, e.ty = t
  · rw [try_insert_present v h]
    exact hnd
  · push_neg at h
    rw [try_insert_absent v h]
    exact nodup_append_entry hnd h

theorem set_last_eq {l : List α} (h : l ≠ []) (a : α) :
    l.set (l.length - 1) a = l.dropLast ++ [a] := by
  induction l with
  | nil => cases h rfl
  | cons b t ih =>
    cases t with
    | nil => rfl
    | cons c t2 =>
      have h2 := ih (by simp)
      show (b :: c :: t2).set (t2.length + 1) a = (b :: c :: t2).dropLast ++ [a]
      rw [List.set_cons_succ]
      rw [show (c :: t2).length - 1 = t2.length from rfl] at h2
      rw [h2]
      rfl

theorem eq_dropLast_append_of_getLast? {l : List α} {e : α}
    (h : l.getLast? = some e) : l = l.dropLast ++ [e] := by
  have hne : l ≠ [] := by
    intro h0
    subst h0
    cases h
  have h2 : l.getLast hne = e := by
    rw [List.getLast?_eq_getLast l hne] at h
    exact Option.some_inj.mp h
  rw [← h2]
  exact (List.dropLast_append_getLast hne).symm

theorem try_get_append_matching {l : List (Entry τ Val)} {t : τ} (v : Val t) :
    (Workspace.mk (l ++ [⟨t, v⟩])).try_get t = some v := by
  unfold Workspace.try_get
  rw [rposition_append_singleton, if_pos (by simp [Entry.is])]
  simp only [Option.some_bind, List.getElem?_concat_length, downcast_mk]

theorem get_or_insert_with_of_try_get {ws : Workspace τ Val} {t : τ}
    {v : Val t} (h : ws.try_get t = some v) (c : Unit → Val t) :
    ∃ ws', ws.get_or_insert_with t c = .ok (ws', v) := by
  cases hr : rposition (fun e => e.is t) ws.workspaces with
  | none =>
    have : ws.try_get t = none := by
      unfold Workspace.try_get
      rw [hr, Option.none_bind]
    rw [this] at h
    cases h
  | some idx =>
    obtain ⟨ws0, v0, heq, -, -, -, htg⟩ :=
      get_or_insert_with_present c hr
    rw [htg] at h
    cases h
    exact ⟨ws0, heq⟩

/-- The `&mut W` returned by `get_or_insert_with` points at the tail entry;
after writing `v'` through it, the store is the old store with its tail
entry replaced. -/
theorem setTail_eq_of_getLast? {ws : Workspace τ Val} {t t0 : τ}
    {v0 : Val t0} (h : ws.workspaces.getLast? = some ⟨t0, v0⟩)
    (v : Val t) :
    (ws.setTail t v).workspaces = ws.workspaces.dropLast ++ [⟨t, v⟩] := by
  have hne : ws.workspaces ≠ [] := by
    intro h0
    rw [h0] at h
    cases h
  unfold Workspace.setTail
  exact set_last_eq hne _

/-! Invariant preservation along arbitrary operation sequences, and
totality of the scoped-access wrapper. -/

theorem except_map_fst_ok {ε : Type _} {γ : Type _} {δ : Type _}
    {x : Except ε (γ × δ)} {a : γ}
    (h : x.map Prod.fst = .ok a) : ∃ b, x = .ok (a, b) := by
  cases x with
  | error e => simp [Except.map] at h
  | ok p =>
    simp only [Except.map, Except.ok.injEq] at h
    exact ⟨p.2, by rw [← h]⟩

theorem op_apply_nodup {op : Op τ Val} {ws ws' : Workspace τ Val}
    (hnd : (ws.workspaces.map Entry.ty).Nodup)
    (h : op.apply ws = .ok ws') :
    (ws'.workspaces.map Entry.ty).Nodup := by
  cases op with
  | getOrInsertWith t create =>
    simp only [Op.apply] at h
    obtain ⟨v, hx⟩ := except_map_fst_ok h
    exact get_or_insert_with_nodup hnd hx
  | getOrDefault t inst =>
    simp only [Op.apply, Workspace.get_or_default] at h
    obtain ⟨v, hx⟩ := except_map_fst_ok h
    exact get_or_insert_with_nodup hnd hx
  | tryInsert t v =>
    simp only [Op.apply, Except.ok.injEq] at h
    rw [← h]
    exact try_insert_nodup hnd
  | tryGet t =>
    simp only [Op.apply, Except.ok.injEq] at h
    rw [← h]
    exact hnd
  | tryGetMut t =>
    simp only [Op.apply, Except.ok.injEq] at h
    rw [← h]
    exact hnd

theorem runOps_nodup {ops : List (Op τ Val)} {ws ws' : Workspace τ Val}
    (hnd : (ws.workspaces.map Entry.ty).Nodup)
    (h : runOps ops ws = .ok ws') :
    (ws'.workspaces.map Entry.ty).Nodup := by
  induction ops generalizing ws with
  | nil =>
    unfold runOps at h
    cases h
    exact hnd
  | cons op rest ih =>
    unfold runOps at h
    cases happ : op.apply ws with
    | error pk => rw [happ] at h; cases h
    | ok ws1 =>
      rw [happ] at h
      exact ih (op_apply_nodup hnd happ) h

theorem get_or_default_isOk (ws : Workspace τ Val) (t : τ)
    [Inhabited (Val t)] :
    ∃ ws' v, ws.get_or_default t = .ok (ws', v) :=
  get_or_insert_with_isOk ws t _

theorem with_thread_local_workspace_isOk {ε : Type u} {β : Type v}
    (h : Handle τ Val) (t : τ) [Inhabited (Val t)]
    (f : Handle τ Val → Val t → Except ε β × Val t)
    (hfree : h.held = false) :
    ∃ out h', with_thread_local_workspace h t f = .ok (out, h') ∧
      h'.held = false := by
  obtain ⟨ws', v, heq⟩ :=
    get_or_default_isOk (Workspace.mk h.store.workspaces) t
  unfold with_thread_local_workspace
  rw [hfree]
  simp only [Bool.false_eq_true, if_false]
  have heq' : ({ h with held := true } : Handle τ Val).store.get_or_default t
      = .ok (ws', v) := heq
  rw [heq']
  exact ⟨_, _, rfl, rfl⟩

theorem get_or_insert_with_getLast? {ws ws' : Workspace τ Val} {t : τ}
    {create : Unit → Val t} {v : Val t}
    (h : ws.get_or_insert_with t create = .ok (ws', v)) :
    ws'.workspaces.getLast? = some ⟨t, v⟩ := by
  cases hr : rposition (fun e => e.is t) ws.workspaces with
  | none =>
    rw [get_or_insert_with_absent create hr] at h
    simp only [Except.ok.injEq, Prod.mk.injEq] at h
    obtain ⟨h1, h2⟩ := h
    rw [← h1, ← h2]
    exact List.getLast?_concat _
  | some idx =>
    obtain ⟨ws0, v0, heq, -, -, hlast, -⟩ :=
      get_or_insert_with_present create hr
    rw [heq] at h
    simp only [Except.ok.injEq, Prod.mk.injEq] at h
    obtain ⟨h1, h2⟩ := h
    rw [← h1, ← h2]
    exact hlast

theorem filter_is_length_le_one {l : List (Entry τ Val)}
    (hnd : (l.map Entry.ty).Nodup) (t : τ) :
    (l.filter (fun e => e.is t)).length ≤ 1 := by
  induction l with
  | nil => simp
  | cons e rest ih =>
    rw [List.map_cons, List.nodup_cons] at hnd
    obtain ⟨hnotin, hnd'⟩ := hnd
    by_cases hp : e.is t
    · have hre : rest.filter (fun x => x.is t) = [] := by
        rw [List.filter_eq_nil_iff]
        intro a ha hat
        apply hnotin
        have hta : a.ty = t := by simpa [Entry.is] using hat
        have hte : e.ty = t := by simpa [Entry.is] using hp
        rw [hte, ← hta]
        exact List.mem_map.mpr ⟨a, ha, rfl⟩
      simp [List.filter_cons, hp, hre]
    · simpa [List.filter_cons, hp] using ih hnd'

/-! Claim theorems. -/

/-- C1: for every type `W` and closure `create`, `get_or_insert_with`
returns the stored `W` entry: when no `W` entry exists (the `rposition`
lookup misses), it installs `create ()` as the single new entry and returns
exactly that value — `create` is evaluated at one place only; when a `W`
entry already exists, the result is independent of `create` (so `create` is
never called) and the returned value is a `W` entry already stored. -/
theorem C1_get_or_insert_with_contract (ws : Workspace τ Val) (t : τ)
    (create : Unit → Val t) :
    (rposition (fun e => e.is t) ws.workspaces = none →
      ws.get_or_insert_with t create =
        .ok (⟨ws.workspaces ++ [⟨t, create ()⟩]⟩, create ())) ∧
    ((rposition (fun e => e.is t) ws.workspaces).isSome →
      (∀ c₂ : Unit → Val t,
        ws.get_or_insert_with t create = ws.get_or_insert_with t c₂) ∧
      ∀ ws' v, ws.get_or_insert_with t create = .ok (ws', v) →
        Entry.mk t v ∈ ws.workspaces) := by
  constructor
  · intro h
    exact get_or_insert_with_absent create h
  · intro hsome
    cases hr : rposition (fun e => e.is t) ws.workspaces with
    | none =>
      rw [hr] at hsome
      cases hsome
    | some idx =>
      refine ⟨fun c₂ => get_or_insert_with_create_irrelevant hr create c₂, ?_⟩
      intro ws' v h
      obtain ⟨ws0, v0, heq, -, hmem, -, -⟩ :=
        get_or_insert_with_present create hr
      rw [heq] at h
      simp only [Except.ok.injEq, Prod.mk.injEq] at h
      obtain ⟨-, h2⟩ := h
      rw [← h2]
      exact hmem

/-- Witness for C1 at concrete inputs: creating into an empty store, and a
hit on a one-entry store (result independent of the closure, returned value
was already stored). -/
theorem C1_witness :
    (Workspace.mk ([] : List (Entry Nat (fun _ => Nat)))).get_or_insert_with
        0 (fun _ => 7) = .ok (⟨[⟨0, 7⟩]⟩, 7) ∧
    (Workspace.mk [(⟨0, 5⟩ : Entry Nat (fun _ => Nat))]).get_or_insert_with
        0 (fun _ => 7) =
      (Workspace.mk [(⟨0, 5⟩ : Entry Nat (fun _ => Nat))]).get_or_insert_with
        0 (fun _ => 9) ∧
    Entry.mk 0 5 ∈ [(⟨0, 5⟩ : Entry Nat (fun _ => Nat))] :=
  ⟨(C1_get_or_insert_with_contract ⟨[]⟩ 0 (fun _ => 7)).1 rfl,
   ((C1_get_or_insert_with_contract ⟨[⟨0, 5⟩]⟩ 0 (fun _ => 7)).2 (by rfl)).1
     (fun _ => 9),
   ((C1_get_or_insert_with_contract ⟨[⟨0, 5⟩]⟩ 0 (fun _ => 7)).2 (by rfl)).2
     ⟨[⟨0, 5⟩]⟩ 5 (by rfl)⟩

/-- C2: starting from an empty `Workspace`, every completing sequence of
store operations leaves at most one entry per concrete type: the sequence
of type tags is duplicate-free, so each type's entry count is at most one
(in particular repeated `get_or_default` calls never create a second
entry). -/
theorem C2_unique_entry_per_type (ops : List (Op τ Val))
    (ws' : Workspace τ Val)
    (h : runOps ops (Workspace.default τ Val) = .ok ws') :
    (ws'.workspaces.map Entry.ty).Nodup ∧
    ∀ t, (ws'.workspaces.filter (fun e => e.is t)).length ≤ 1 := by
  have hnd : (ws'.workspaces.map Entry.ty).Nodup :=
    runOps_nodup (by simp [Workspace.default]) h
  exact ⟨hnd, fun t => filter_is_length_le_one hnd t⟩

/-- Witness for C2 on a concrete operation sequence: a repeated
`get_or_default`, a `get_or_insert_with` and a `try_insert`. -/
theorem C2_witness :
    (([⟨1, 7⟩, ⟨0, 0⟩] : List (Entry Nat (fun _ => Nat))).map
      Entry.ty).Nodup ∧
    (([⟨1, 7⟩, ⟨0, 0⟩] : List (Entry Nat (fun _ => Nat))).filter
      (fun e => e.is 0)).length ≤ 1 :=
  ⟨(C2_unique_entry_per_type
      [Op.getOrDefault 0 ⟨0⟩, Op.getOrInsertWith 1 (fun _ => 7),
        Op.tryInsert 0 9, Op.getOrDefault 0 ⟨0⟩]
      ⟨[⟨1, 7⟩, ⟨0, 0⟩]⟩ (by rfl)).1,
   (C2_unique_entry_per_type
      [Op.getOrDefault 0 ⟨0⟩, Op.getOrInsertWith 1 (fun _ => 7),
        Op.tryInsert 0 9, Op.getOrDefault 0 ⟨0⟩]
      ⟨[⟨1, 7⟩, ⟨0, 0⟩]⟩ (by rfl)).2 0⟩

/-- C3: exclusivity of the scoped-access wrapper. A
`with_thread_local_workspace` call on a handle whose borrow is already held
— which is exactly the state of the handle the body receives, so any nested
invocation on the same handle — fails fatally with the re-entrant-borrow
panic, whatever the workspace type `t` is; and every completed call
(whether the body's outcome is `Except.ok` or `Except.error`, i.e. normal
return or unwinding) returns a handle with the borrow released, on which a
subsequent call (for any type `t'`) succeeds. -/
theorem C3_exclusivity_and_release {ε : Type u} {β : Type v}
    {ε' : Type u} {β' : Type v}
    (h : Handle τ Val) (t t' : τ) [Inhabited (Val t)] [Inhabited (Val t')]
    (f : Handle τ Val → Val t → Except ε β × Val t)
    (f' : Handle τ Val → Val t' → Except ε' β' × Val t') :
    (h.held = true →
      with_thread_local_workspace h t f = .error .reentrantBorrow) ∧
    (∀ out h₂, with_thread_local_workspace h t f = .ok (out, h₂) →
      h₂.held = false ∧
      ∃ r, with_thread_local_workspace h₂ t' f' = .ok r) := by
  constructor
  · intro hheld
    unfold with_thread_local_workspace
    rw [hheld]
    rfl
  · intro out h₂ hok
    cases hh : h.held with
    | true =>
      unfold with_thread_local_workspace at hok
      rw [hh] at hok
      cases hok
    | false =>
      obtain ⟨out0, h0, heq, hfree⟩ :=
        with_thread_local_workspace_isOk h t f hh
      rw [heq] at hok
      simp only [Except.ok.injEq, Prod.mk.injEq] at hok
      obtain ⟨-, h2⟩ := hok
      rw [← h2]
      refine ⟨hfree, ?_⟩
      obtain ⟨out1, h1, heq1, -⟩ :=
        with_thread_local_workspace_isOk h0 t' f' hfree
      exact ⟨(out1, h1), heq1⟩

/-- Witness for C3: a nested (held) call fails with the re-entrant-borrow
panic, and after a completed call the returned handle is free and accepts
the next call. -/
theorem C3_witness :
    with_thread_local_workspace
        (⟨true, ⟨[]⟩⟩ : Handle Nat (fun _ => Nat)) 0
        (fun _ w => ((Except.ok w : Except Unit Nat), w)) =
      .error .reentrantBorrow ∧
    ((⟨false, ⟨[⟨0, 1⟩]⟩⟩ : Handle Nat (fun _ => Nat)).held = false ∧
      ∃ r, with_thread_local_workspace
          (⟨false, ⟨[⟨0, 1⟩]⟩⟩ : Handle Nat (fun _ => Nat)) 0
          (fun _ w => ((Except.ok w : Except Unit Nat), w)) = .ok r) :=
  ⟨(C3_exclusivity_and_release ⟨true, ⟨[]⟩⟩ 0 0
      (fun _ w => ((Except.ok w : Except Unit Nat), w))
      (fun _ w => ((Except.ok w : Except Unit Nat), w))).1 rfl,
   (C3_exclusivity_and_release ⟨false, ⟨[]⟩⟩ 0 0
      (fun _ w => ((Except.ok w : Except Unit Nat), w + 1))
      (fun _ w => ((Except.ok w : Except Unit Nat), w))).2
     (Except.ok 0) ⟨false, ⟨[⟨0, 1⟩]⟩⟩ (by rfl)⟩

/-- C4: recency promotion. Whatever `get_or_insert_with` returns occupies
the tail (most-recently-used) position of the entry sequence: the
post-state's last entry is exactly the returned `W` value; on a hit the
post-state is a permutation (the swap) of the pre-state, and on a miss it
is the pre-state with the created entry appended (where the swap is the
identity). -/
theorem C4_returned_entry_at_tail (ws ws' : Workspace τ Val) (t : τ)
    (create : Unit → Val t) (v : Val t)
    (h : ws.get_or_insert_with t create = .ok (ws', v)) :
    ws'.workspaces.getLast? = some ⟨t, v⟩ ∧
    ((rposition (fun e => e.is t) ws.workspaces).isSome →
      List.Perm ws'.workspaces ws.workspaces) ∧
    (rposition (fun e => e.is t) ws.workspaces = none →
      ws'.workspaces = ws.workspaces ++ [⟨t, v⟩] ∧ v = create ()) := by
  refine ⟨get_or_insert_with_getLast? h, ?_, ?_⟩
  · intro hsome
    cases hr : rposition (fun e => e.is t) ws.workspaces with
    | none =>
      rw [hr] at hsome
      cases hsome
    | some idx =>
      obtain ⟨ws0, v0, heq, hperm, -, -, -⟩ :=
        get_or_insert_with_present create hr
      rw [heq] at h
      simp only [Except.ok.injEq, Prod.mk.injEq] at h
      obtain ⟨h1, -⟩ := h
      rw [← h1]
      exact hperm
  · intro hr
    rw [get_or_insert_with_absent create hr] at h
    simp only [Except.ok.injEq, Prod.mk.injEq] at h
    obtain ⟨h1, h2⟩ := h
    constructor
    · rw [← h1, ← h2]
    · rw [← h2]

/-- Witness for C4 on a hit: looking up type `0` in `[⟨0,5⟩, ⟨1,7⟩]` swaps
its entry to the tail, a permutation of the original store. -/
theorem C4_witness :
    ([⟨1, 7⟩, ⟨0, 5⟩] : List (Entry Nat (fun _ => Nat))).getLast? =
      some ⟨0, 5⟩ ∧
    List.Perm ([⟨1, 7⟩, ⟨0, 5⟩] : List (Entry Nat (fun _ => Nat)))
      [⟨0, 5⟩, ⟨1, 7⟩] :=
  ⟨(C4_returned_entry_at_tail ⟨[⟨0, 5⟩, ⟨1, 7⟩]⟩ ⟨[⟨1, 7⟩, ⟨0, 5⟩]⟩ 0
      (fun _ => 9) 5 (by rfl)).1,
   (C4_returned_entry_at_tail ⟨[⟨0, 5⟩, ⟨1, 7⟩]⟩ ⟨[⟨1, 7⟩, ⟨0, 5⟩]⟩ 0
      (fun _ => 9) 5 (by rfl)).2.1 (by rfl)⟩

/-- C5: persistence and frame. After `get_or_insert_with` for `t` returns
`(ws1, v)` and the caller writes `v'` through the returned reference (the
tail entry, `setTail`), the next lookup of `t` — whether the read-only
probe `try_get` or another `get_or_insert_with` — sees `v'`; and for any
other type `t' ≠ t` the whole operation (lookup plus mutation) leaves
`try_get t'` exactly as it was before, so interleaved lookups of two types
each see that type's latest stored value. -/
theorem C5_persistence_and_frame (ws ws1 : Workspace τ Val) (t t' : τ)
    (create c₂ : Unit → Val t) (v v' : Val t)
    (hnd : (ws.workspaces.map Entry.ty).Nodup) (hne : t' ≠ t)
    (h : ws.get_or_insert_with t create = .ok (ws1, v)) :
    (ws1.setTail t v').try_get t = some v' ∧
    (∃ ws2, (ws1.setTail t v').get_or_insert_with t c₂ = .ok (ws2, v')) ∧
    (ws1.setTail t v').try_get t' = ws.try_get t' := by
  have hlast : ws1.workspaces.getLast? = some ⟨t, v⟩ :=
    get_or_insert_with_getLast? h
  have hsw : ws1.setTail t v' =
      ⟨ws1.workspaces.dropLast ++ [⟨t, v'⟩]⟩ := by
    have hd := setTail_eq_of_getLast? hlast v'
    exact congrArg Workspace.mk hd
  refine ⟨?_, ?_, ?_⟩
  · rw [hsw]
    exact try_get_append_matching v'
  · rw [hsw]
    exact get_or_insert_with_of_try_get (try_get_append_matching v') c₂
  · rw [hsw]
    refine try_get_congr hnd ?_
    intro u
    rw [mem_append_entry_iff hne]
    have hws1 : Entry.mk t' u ∈ ws1.workspaces ↔
        Entry.mk t' u ∈ ws1.workspaces.dropLast := by
      conv_lhs => rw [eq_dropLast_append_of_getLast? hlast]
      exact mem_append_entry_iff hne
    rw [← hws1]
    exact get_or_insert_with_mem_frame hne h u

/-- Witness for C5: starting from `[⟨1,7⟩]`, a `get_or_insert_with` for
type `0` followed by a write of `9` through the returned reference makes
the next type-`0` lookups read `9` while the type-`1` value stays `7`. -/
theorem C5_witness :
    ((⟨[⟨1, 7⟩, ⟨0, 5⟩]⟩ : Workspace Nat (fun _ => Nat)).setTail 0 9).try_get
        0 = some 9 ∧
    (∃ ws2, ((⟨[⟨1, 7⟩, ⟨0, 5⟩]⟩ : Workspace Nat
        (fun _ => Nat)).setTail 0 9).get_or_insert_with 0 (fun _ => 100) =
      .ok (ws2, 9)) ∧
    ((⟨[⟨1, 7⟩, ⟨0, 5⟩]⟩ : Workspace Nat (fun _ => Nat)).setTail 0 9).try_get
        1 = (⟨[⟨1, 7⟩]⟩ : Workspace Nat (fun _ => Nat)).try_get 1 :=
  C5_persistence_and_frame ⟨[⟨1, 7⟩]⟩ ⟨[⟨1, 7⟩, ⟨0, 5⟩]⟩ 0 1
    (fun _ => 5) (fun _ => 100) 5 9 (by simp) (by decide) (by rfl)

/-- C6: first-insert-wins. When no `W` entry exists, `try_insert v`
installs `v` as the new (tail) entry and returns it; when a `W` entry
already exists, the call returns `none`, the store is left exactly
unchanged, and a later `get_or_insert_with`/`get_or_default` on that store
still returns the original stored value, not the discarded one. -/
theorem C6_try_insert_first_wins (ws : Workspace τ Val) (t : τ)
    (v : Val t) :
    ((∀ e ∈ ws.workspaces, e.ty ≠ t) →
      ws.try_insert t v = (⟨ws.workspaces ++ [⟨t, v⟩]⟩, some v)) ∧
    ((∃ e ∈ ws.workspaces, e.ty = t) →
      ws.try_insert t v = (ws, none) ∧
      ∀ w : Val t, (ws.workspaces.map Entry.ty).Nodup →
        Entry.mk t w ∈ ws.workspaces →
        ∀ c : Unit → Val t, ∃ ws2,
          ((ws.try_insert t v).1).get_or_insert_with t c = .ok (ws2, w)) := by
  constructor
  · intro habs
    exact try_insert_absent v habs
  · intro hpres
    refine ⟨try_insert_present v hpres, ?_⟩
    intro w hnd hmem c
    rw [try_insert_present v hpres]
    exact get_or_insert_with_of_try_get (try_get_of_mem hnd hmem) c

/-- Witness for C6: inserting type `0` value `3` into an empty store
succeeds; a second `try_insert` of `5` is refused, leaves the store
untouched, and the following lookup still reads `3`. -/
theorem C6_witness :
    (Workspace.mk ([] : List (Entry Nat (fun _ => Nat)))).try_insert 0 3 =
      (⟨[⟨0, 3⟩]⟩, some 3) ∧
    (⟨[⟨0, 3⟩]⟩ : Workspace Nat (fun _ => Nat)).try_insert 0 5 =
      (⟨[⟨0, 3⟩]⟩, none) ∧
    ∃ ws2, (((⟨[⟨0, 3⟩]⟩ : Workspace Nat
        (fun _ => Nat)).try_insert 0 5).1).get_or_insert_with 0
      (fun _ => 0) = .ok (ws2, 3) :=
  ⟨(C6_try_insert_first_wins ⟨[]⟩ 0 3).1 (by simp),
   ((C6_try_insert_first_wins ⟨[⟨0, 3⟩]⟩ 0 5).2
      ⟨⟨0, 3⟩, by simp, rfl⟩).1,
   ((C6_try_insert_first_wins ⟨[⟨0, 3⟩]⟩ 0 5).2
      ⟨⟨0, 3⟩, by simp, rfl⟩).2 3 (by simp) (by simp) (fun _ => 0)⟩

/-- C7: non-creating probes. On a store with no `W` entry, `try_get` and
`try_get_mut` report absence; as store operations they leave the state
unchanged, and a subsequent `get_or_default` still constructs a fresh
default value (appending it as the one new entry) rather than observing
phantom data. -/
theorem C7_probes_non_creating (ws : Workspace τ Val) (t : τ)
    [Inhabited (Val t)] (h : ∀ e ∈ ws.workspaces, e.ty ≠ t) :
    ws.try_get t = none ∧ ws.try_get_mut t = none ∧
    Op.apply (Op.tryGet t) ws = .ok ws ∧
    Op.apply (Op.tryGetMut t) ws = .ok ws ∧
    ws.get_or_default t =
      .ok (⟨ws.workspaces ++ [⟨t, (Inhabited.default : Val t)⟩]⟩,
        (Inhabited.default : Val t)) := by
  have hnone : ws.try_get t = none := try_get_eq_none_iff.mpr h
  have hr : rposition (fun e => e.is t) ws.workspaces = none := by
    rw [rposition_eq_none_iff]
    intro a ha
    simpa [Entry.is] using h a ha
  refine ⟨hnone, hnone, rfl, rfl, ?_⟩
  unfold Workspace.get_or_default
  exact get_or_insert_with_absent _ hr

/-- Witness for C7: on the store `[⟨1,7⟩]`, probes for type `0` return
absence, change nothing, and the following `get_or_default` reads the fresh
default `0`. -/
theorem C7_witness :
    (⟨[⟨1, 7⟩]⟩ : Workspace Nat (fun _ => Nat)).try_get 0 = none ∧
    (⟨[⟨1, 7⟩]⟩ : Workspace Nat (fun _ => Nat)).try_get_mut 0 = none ∧
    Op.apply (Op.tryGet 0) (⟨[⟨1, 7⟩]⟩ : Workspace Nat (fun _ => Nat)) =
      .ok ⟨[⟨1, 7⟩]⟩ ∧
    Op.apply (Op.tryGetMut 0) (⟨[⟨1, 7⟩]⟩ : Workspace Nat (fun _ => Nat)) =
      .ok ⟨[⟨1, 7⟩]⟩ ∧
    (⟨[⟨1, 7⟩]⟩ : Workspace Nat (fun _ => Nat)).get_or_default 0 =
      .ok (⟨[⟨1, 7⟩, ⟨0, 0⟩]⟩, 0) :=
  C7_probes_non_creating ⟨[⟨1, 7⟩]⟩ 0 (by simp)

/-- C8: identity precision. For distinct types `t ≠ t'`, on a store holding
only a `t'` entry, a probe for `t` reports absence and `get_or_insert_with`
for `t` creates a fresh entry from its closure rather than returning the
`t'` entry — type identity never produces a cross-type match. -/
theorem C8_identity_precision (t t' : τ) (b : Val t') (c : Unit → Val t)
    (hne : t ≠ t') :
    (Workspace.mk [(⟨t', b⟩ : Entry τ Val)]).try_get t = none ∧
    (Workspace.mk [(⟨t', b⟩ : Entry τ Val)]).get_or_insert_with t c =
      .ok (⟨[⟨t', b⟩, ⟨t, c ()⟩]⟩, c ()) := by
  have habs : ∀ e ∈ [(⟨t', b⟩ : Entry τ Val)], e.ty ≠ t := by
    intro e he
    rw [List.mem_singleton] at he
    subst he
    exact fun hh => hne hh.symm
  constructor
  · exact try_get_eq_none_iff.mpr habs
  · have hr : rposition (fun e => e.is t)
        [(⟨t', b⟩ : Entry τ Val)] = none := by
      rw [rposition_eq_none_iff]
      intro a ha
      simpa [Entry.is] using habs a ha
    exact get_or_insert_with_absent c hr

/-- Witness for C8 with the distinct types `0` and `1` (same value type,
mirroring "identical layout"): only a type-`1` entry exists, the type-`0`
probe misses, and the lookup creates a fresh type-`0` entry. -/
theorem C8_witness :
    (Workspace.mk [(⟨1, 7⟩ : Entry Nat (fun _ => Nat))]).try_get 0 =
      none ∧
    (Workspace.mk [(⟨1, 7⟩ : Entry Nat
        (fun _ => Nat))]).get_or_insert_with 0 (fun _ => 3) =
      .ok (⟨[⟨1, 7⟩, ⟨0, 3⟩]⟩, 3) :=
  C8_identity_precision 0 1 7 (fun _ => 3) (by decide)

/-- C9: the internal-consistency panic is unreachable. For every store
state and every call, the entry sitting at the tail position after the swap
downcasts successfully to `W` (so the `expect` on `downcast_mut` never
fires) and `get_or_insert_with` returns it. -/
theorem C9_downcast_at_tail_succeeds (ws : Workspace τ Val) (t : τ)
    (create : Unit → Val t) :
    ∃ l2 e v,
      lswap (ws.lookupOrCreate t create).1 (ws.lookupOrCreate t create).2
          ((ws.lookupOrCreate t create).1.length - 1) = some l2 ∧
      l2[(ws.lookupOrCreate t create).1.length - 1]? = some e ∧
      e.downcast t = some v ∧
      ws.get_or_insert_with t create = .ok (⟨l2⟩, v) := by
  cases hr : rposition (fun e => e.is t) ws.workspaces with
  | none =>
    have hlc : ws.lookupOrCreate t create =
        (ws.workspaces ++ [⟨t, create ()⟩], ws.workspaces.length) := by
      unfold Workspace.lookupOrCreate
      rw [hr]
    rw [hlc]
    dsimp only
    have hlen :
        (ws.workspaces ++ [(⟨t, create ()⟩ : Entry τ Val)]).length - 1 =
          ws.workspaces.length := by simp
    refine ⟨ws.workspaces ++ [⟨t, create ()⟩], ⟨t, create ()⟩, create (),
      ?_, ?_, downcast_mk, ?_⟩
    · rw [hlen, lswap_some (List.getElem?_concat_length _ _)
        (List.getElem?_concat_length _ _), List.set_set,
        set_append_singleton]
    · rw [hlen]
      exact List.getElem?_concat_length _ _
    · exact get_or_insert_with_absent create hr
  | some idx =>
    have hlc : ws.lookupOrCreate t create = (ws.workspaces, idx) := by
      unfold Workspace.lookupOrCreate
      rw [hr]
    rw [hlc]
    dsimp only
    obtain ⟨e, hidx, hpe⟩ := rposition_some_spec hr
    have hty : e.ty = t := by simpa [Entry.is] using hpe
    obtain ⟨v, hv⟩ := downcast_isSome_of_ty hty
    have hpos : 0 < ws.workspaces.length :=
      Nat.lt_of_le_of_lt (Nat.zero_le _) (rposition_lt_length hr)
    obtain ⟨elast, hlast⟩ :
        ∃ elast, ws.workspaces[ws.workspaces.length - 1]? = some elast := by
      cases hl : ws.workspaces[ws.workspaces.length - 1]? with
      | none =>
        rw [List.getElem?_eq_none_iff] at hl
        exact absurd (Nat.sub_lt hpos Nat.one_pos) (Nat.not_lt.mpr hl)
      | some x => exact ⟨x, rfl⟩
    refine ⟨(ws.workspaces.set idx elast).set
      (ws.workspaces.length - 1) e, e, v, lswap_some hidx hlast, ?_, hv, ?_⟩
    · exact List.getElem?_set_self
        (by rw [List.length_set]; exact Nat.sub_lt hpos Nat.one_pos)
    · exact get_or_insert_with_eq hlc hidx hlast hv

/-- C10: no indexing panic. After the lookup-or-create step the entry list
is non-empty (so the tail index `len - 1` does not underflow), the found or
created index and the tail index are in bounds, and `get_or_insert_with`
returns `ok` — in particular it is total on the freshly constructed empty
workspace. -/
theorem C10_no_indexing_panic (ws : Workspace τ Val) (t : τ)
    (create : Unit → Val t) :
    0 < (ws.lookupOrCreate t create).1.length ∧
    (ws.lookupOrCreate t create).2 <
      (ws.lookupOrCreate t create).1.length ∧
    (ws.lookupOrCreate t create).1.length - 1 <
      (ws.lookupOrCreate t create).1.length ∧
    (∃ r, ws.get_or_insert_with t create = .ok r) ∧
    ∃ r0, (Workspace.default τ Val).get_or_insert_with t create = .ok r0 := by
  have hbounds : 0 < (ws.lookupOrCreate t create).1.length ∧
      (ws.lookupOrCreate t create).2 <
        (ws.lookupOrCreate t create).1.length := by
    cases hr : rposition (fun e => e.is t) ws.workspaces with
    | none =>
      have hlc : ws.lookupOrCreate t create =
          (ws.workspaces ++ [⟨t, create ()⟩], ws.workspaces.length) := by
        unfold Workspace.lookupOrCreate
        rw [hr]
      rw [hlc]
      constructor
      · simp
      · simp
    | some idx =>
      have hlc : ws.lookupOrCreate t create = (ws.workspaces, idx) := by
        unfold Workspace.lookupOrCreate
        rw [hr]
      rw [hlc]
      have hidx := rposition_lt_length hr
      exact ⟨Nat.lt_of_le_of_lt (Nat.zero_le _) hidx, hidx⟩
  obtain ⟨ws1, v1, heq1⟩ := get_or_insert_with_isOk ws t create
  obtain ⟨ws0, v0, heq0⟩ :=
    get_or_insert_with_isOk (Workspace.default τ Val) t create
  exact ⟨hbounds.1, hbounds.2, Nat.sub_lt hbounds.1 Nat.one_pos,
    ⟨(ws1, v1), heq1⟩, ⟨(ws0, v0), heq0⟩⟩

end Davenport
